import Mathlib

/-!
Verification of the payoff-construction and game-solving engine of
`agt_sim.py` (fuel-map-app).

Numbers are modelled by exact rationals `ℚ`: the Python code only uses
addition, multiplication, division, `max`/`min` and comparisons, so every
quantity appearing in the verified properties is an exact rational of the
inputs.  Matrices are row lists (`List (List ℚ)`), vectors are `List ℚ`.
A Python function that can raise is modelled with `Option` (`none` models
an uncaught exception).
-/

namespace AgtSim

/-- Inner product of two vectors, as computed by `np.dot` (truncating to the
shorter length, which never happens on the square inputs considered). -/
def dot (v w : List ℚ) : ℚ := (List.zipWith (fun a b => a * b) v w).sum

/-- Matrix–vector product `M.dot(v)` for a matrix given as a list of rows. -/
def matVec (M : List (List ℚ)) (v : List ℚ) : List ℚ := M.map (fun r => dot r v)

/-- Entry `M[i][j]`, with 0 outside the range (theorems only use in-range
indices). -/
def entry (M : List (List ℚ)) (i j : Nat) : ℚ := (M.getD i []).getD j 0

/-- Clamp, as computed by `np.clip x lo hi`. -/
def clip (x lo hi : ℚ) : ℚ := min hi (max lo x)

/-- Square zero matrix `np.zeros((n, n))`. -/
def zeroMat (n : Nat) : List (List ℚ) := List.replicate n (List.replicate n 0)

/-- Uniform distribution over `n` strategies, `np.ones(n) / n`. -/
def uniform (n : Nat) : List ℚ := List.replicate n (1 / (n : ℚ))

/-- One row of the aggregated observation table produced by
`company_month_aggregate`: a (trading area, month, company, value) record.
Duplicate keys are tolerated; lookups below sum over all matching rows,
exactly as the pandas `.sum()` reductions in the source do. -/
structure Obs where
  area : String
  month : String
  company : String
  value : ℚ
deriving DecidableEq

/-- Total value of a (trading area, month) slice:
`agg_df[(agg_df.trading_area == a) & (agg_df.month == m)].value.sum()`. -/
def sumVal (agg : List Obs) (a m : String) : ℚ :=
  ((agg.filter (fun o => o.area == a && o.month == m)).map (fun o => o.value)).sum

/-- Value of one company in a (trading area, month) slice, 0 when absent. -/
def sumValC (agg : List Obs) (a m c : String) : ℚ :=
  ((agg.filter (fun o => o.area == a && o.month == m && o.company == c)).map
    (fun o => o.value)).sum

/-- Lexicographic comparison of char lists by code point — the order
Python's `sorted` uses on strings.  (An executable mirror of Lean's
`List Char` order; `charListLe_iff_le` below proves the agreement.) -/
def charListLe : List Char → List Char → Bool
  | [], _ => true
  | _ :: _, [] => false
  | a :: as, b :: bs =>
    if a.toNat < b.toNat then true
    else if b.toNat < a.toNat then false
    else charListLe as bs

/-- Lexicographic string comparison by code point (Python's string order). -/
def strLe (a b : String) : Bool := charListLe a.data b.data

/-- Sorted distinct companies observed in the area across all months
(`companies_in_area`).  Python's `sorted` is a stable sort under the
lexicographic string order. -/
def companies_in_area (agg : List Obs) (a : String) : List String :=
  List.insertionSort (fun x y => strLe x y = true)
    (((agg.filter (fun o => o.area == a)).map (fun o => o.company)).dedup)

/-- Epsilon floor for monthly totals (`eps_total = 1e-9` in the source). -/
def eps_total : ℚ := 1 / 1000000000

/-- Opponent influence factor, `influence_factor = 0.25` in the source. -/
def influence_factor : ℚ := 1 / 4

/-- Clamping bound, `cap = 50.0` in the source. -/
def cap : ℚ := 50

/-- Percentage-point share change of company `c` between months `mPrev` and
`mCurr`: `(share_curr - share_prev) * 100` with totals floored at
`eps_total`, as computed inside `build_payoff_matrix_from_observations`. -/
def shareChangePP (agg : List Obs) (a mPrev mCurr c : String) : ℚ :=
  (sumValC agg a mCurr c / max (sumVal agg a mCurr) eps_total -
    sumValC agg a mPrev c / max (sumVal agg a mPrev) eps_total) * 100

/-- Payoff builder `build_payoff_matrix_from_observations`.  The month at `month_index`
(and its predecessor) is read with a default of `""`; Python would raise
for an out-of-range index, and the theorems below only instantiate the
in-range case actually reached from the orchestrator. -/
def build_payoff_matrix_from_observations (agg : List Obs) (area : String)
    (month_index : Nat) (months_sorted : List String) :
    List (List ℚ) × List String :=
  let companies := companies_in_area agg area
  if companies.length = 0 then (zeroMat 0, companies)
  else if month_index = 0 then (zeroMat companies.length, companies)
  else
    let m_prev := months_sorted.getD (month_index - 1) ("")
    let m_curr := months_sorted.getD month_index ("")
    let n := companies.length
    let M := (List.range n).map (fun i => (List.range n).map (fun j =>
      let own := shareChangePP agg area m_prev m_curr (companies.getD i (""))
      let opp := shareChangePP agg area m_prev m_curr (companies.getD j (""))
      clip (if i = j then own else own - influence_factor * opp) (-cap) cap))
    (M, companies)

/-- Tail of the first-maximum scan performed by `np.argmax`: `bi` is the index
of the running maximum `bv`, `i` the index of the head of `xs`; only a
strictly larger value replaces the running maximum, so the first maximum
wins. -/
def argmaxAux : List ℚ → Nat → Nat → ℚ → Nat
  | [], _, bi, _ => bi
  | x :: xs, i, bi, bv =>
    if bv < x then argmaxAux xs (i + 1) i x else argmaxAux xs (i + 1) bi bv

/-- Model of `np.argmax`: index of the first maximum; `none` models the
`ValueError` raised on an empty array. -/
def argmax? : List ℚ → Option Nat
  | [] => none
  | x :: xs => some (argmaxAux xs 1 0 x)

/-- In-place increment `v[k] += 1` of `cum_counts`. -/
def incAt : List ℚ → Nat → List ℚ
  | [], _ => []
  | x :: xs, 0 => (x + 1) :: xs
  | x :: xs, n + 1 => x :: incAt xs n

/-- The `for t in range(steps)` loop of `fictitious_play`, carrying
`cum_counts` and `opp_belief`. -/
def fpLoop (M : List (List ℚ)) : Nat → List ℚ → List ℚ → Option (List ℚ)
  | 0, _, belief => some belief
  | t + 1, counts, belief =>
    match argmax? (matVec M belief) with
    | none => none
    | some br =>
      let counts' := incAt counts br
      fpLoop M t counts' (counts'.map (fun c => c / counts'.sum))

/-- The solver `fictitious_play` (the source's default is `steps = 200`). -/
def fictitious_play (M : List (List ℚ)) (steps : Nat) : Option (List ℚ) :=
  fpLoop M steps (List.replicate M.length 0) (uniform M.length)

/-- One iteration of the `replicator_dynamics` loop: Euler step, clip
negatives to zero, renormalize (uniform reset if the sum is ≤ 0). -/
def rdStep (M : List (List ℚ)) (dt : ℚ) (p : List ℚ) : List ℚ :=
  let payoffs := matVec M p
  let avg := dot p payoffs
  let p1 := List.zipWith (fun pi w => pi + dt * pi * (w - avg)) p payoffs
  let p2 := p1.map (fun x => max x 0)
  let s := p2.sum
  if s ≤ 0 then uniform M.length else p2.map (fun x => x / s)

/-- The solver `replicator_dynamics` (source defaults: `steps = 200`, `dt = 0.01`). -/
def replicator_dynamics (M : List (List ℚ)) (steps : Nat) (dt : ℚ) : List ℚ :=
  (rdStep M dt)^[steps] (uniform M.length)

/-- Shape of `nashpy`'s support-enumeration output for a 2×2 game: a list of
equilibria, each a pair of mixed strategies over two pure strategies. -/
abbrev Equilibria := List ((ℚ × ℚ) × (ℚ × ℚ))

/-- Result dictionary of `compute_lemke_howson_for_pair`: the empty dict, the
full record, or an error-marker dict carrying the message. -/
inductive LHRecord where
  | empty : LHRecord
  | record (p1 p2 : String) (matrix_pair : List (List ℚ)) (eqs : Equilibria) : LHRecord
  | err (msg : String) : LHRecord
deriving DecidableEq

/-- Absolute values of the diagonal, `np.abs(np.diag(payoff_matrix))`. -/
def diagAbs (M : List (List ℚ)) : List ℚ :=
  (List.range M.length).map (fun k => |entry M k k|)

/-- Model of `np.argsort` as a sort of the index list by value.  (numpy's
default quicksort tie order is implementation defined; every property proved
below depends only on the sorted sequence of values, which is the same for
any sort.) -/
def argsort (v : List ℚ) : List Nat :=
  List.insertionSort (fun a b => v.getD a 0 ≤ v.getD b 0) (List.range v.length)

/-- Transpose of a 2×2 matrix, `A.T`. -/
def transposeA (A : List (List ℚ)) : List (List ℚ) :=
  [[entry A 0 0, entry A 1 0], [entry A 0 1, entry A 1 1]]

/-- The solver `compute_lemke_howson_for_pair`.  The external `nashpy` call
(`nash.Game(A, A.T).support_enumeration()`) is a library outside this
repository and is passed in as `support_enumeration`; an `Except.error`
models any exception it raises, which the source's `try/except` turns into
the `{'error': ...}` marker — as it also does for the `IndexError` raised
by `companies[i]` when the company list is shorter than the matrix. -/
def compute_lemke_howson_for_pair
    (support_enumeration : List (List ℚ) → List (List ℚ) → Except String Equilibria)
    (M : List (List ℚ)) (companies : List String) : LHRecord :=
  if M.length = 0 then .empty
  else if M.length < 2 then .empty
  else
    let idx := argsort (diagAbs M)
    let i := idx.getD (M.length - 2) 0
    let j := idx.getD (M.length - 1) 0
    let A := [[entry M i i, entry M i j], [entry M j i, entry M j j]]
    if i < companies.length ∧ j < companies.length then
      match support_enumeration A (transposeA A) with
      | .ok eqs => .record (companies.getD i ("")) (companies.getD j ("")) A eqs
      | .error e => .err e
    else .err ("list index out of range")

/-- Reference model of the fictitious-play best response, following the
spec's words: the lowest-index row maximizing the expected payoff (ties
broken by lowest index); `none` on an empty vector. -/
def lowestIdxMax : List ℚ → Option Nat
  | [] => none
  | x :: xs =>
    match lowestIdxMax xs with
    | none => some 0
    | some k => if x < xs.getD k 0 then some (k + 1) else some 0

/-- Increment of a natural-number count vector. -/
def incNat : List Nat → Nat → List Nat
  | [], _ => []
  | c :: cs, 0 => (c + 1) :: cs
  | c :: cs, n + 1 => c :: incNat cs n

/-- Reference model of the fictitious-play belief state: uniform before any
best response has been recorded, else `counts / sum(counts)`. -/
def specBeliefs (n : Nat) (counts : List Nat) : List ℚ :=
  if counts.sum = 0 then uniform n
  else counts.map (fun (c : Nat) => (c : ℚ) / (counts.sum : ℚ))

/-- Iterations of the reference fictitious-play recurrence, carrying only
the best-response counts. -/
def fpSpecLoop (M : List (List ℚ)) : Nat → List Nat → Option (List Nat)
  | 0, counts => some counts
  | t + 1, counts =>
    match lowestIdxMax (matVec M (specBeliefs M.length counts)) with
    | none => none
    | some br => fpSpecLoop M t (incNat counts br)

/-- Reference fictitious-play recurrence, following the spec's words:
starting from zero counts and a uniform belief, each iteration computes
`ev = M · beliefs`, picks the lowest-index maximizer, increments its count
and rebuilds `beliefs = counts / sum(counts)`; the returned vector is the
final beliefs. -/
def fictitiousPlaySpec (M : List (List ℚ)) (steps : Nat) : Option (List ℚ) :=
  (fpSpecLoop M steps (List.replicate M.length 0)).map
    (fun counts => counts.map (fun (c : Nat) => (c : ℚ) / (counts.sum : ℚ)))

/-- Aggregate table of the hand-computed example in the spec: area `X`,
companies `A` (40 → 50) and `B` (60 → 50), both monthly totals 100. -/
def exampleAgg : List Obs :=
  [⟨"X", "2025-01", "A", 40⟩, ⟨"X", "2025-01", "B", 60⟩,
   ⟨"X", "2025-02", "A", 50⟩, ⟨"X", "2025-02", "B", 50⟩]

/-- Dummy external solver that always succeeds with no equilibria (witness
fixture). -/
def okSolver : List (List ℚ) → List (List ℚ) → Except String Equilibria :=
  fun _ _ => Except.ok []

/-- Dummy external solver that always fails (witness fixture for the
`try/except` path). -/
def errSolver : List (List ℚ) → List (List ℚ) → Except String Equilibria :=
  fun _ _ => Except.error ("boom")

attribute [local semireducible] Rat.add Rat.mul Rat.inv Rat.sub

theorem sum_map_div (l : List ℚ) (s : ℚ) : (l.map (fun x => x / s)).sum = l.sum / s := by
  induction l with
  | nil => simp
  | cons x xs ih => simp [ih, add_div]

theorem zipWith_replicate_right (f : ℚ → ℚ → ℚ) (c : ℚ) (p : List ℚ) :
    ∀ n, p.length ≤ n → List.zipWith f p (List.replicate n c) = p.map (fun x => f x c) := by
  induction p with
  | nil => intro n h; simp
  | cons x xs ih =>
    intro n h
    cases n with
    | zero => simp at h
    | succ n => simp [List.replicate_succ, ih n (by simpa using h)]

theorem getD_map_range {α : Type} (f : Nat → α) (n i : Nat) (h : i < n) (d : α) :
    ((List.range n).map f).getD i d = f i := by
  rw [List.getD_eq_getElem _ _ (by simpa using h)]
  simp

theorem map_getD_range (l : List ℚ) :
    (List.range l.length).map (fun i => l.getD i 0) = l := by
  induction l with
  | nil => simp
  | cons x xs ih =>
    rw [List.length_cons, List.range_succ_eq_map]
    simp only [List.map_cons, List.map_map, List.getD_cons_zero]
    congr 1

theorem incAt_length (l : List ℚ) (k : Nat) : (incAt l k).length = l.length := by
  induction l generalizing k with
  | nil => rfl
  | cons x xs ih => cases k <;> simp [incAt, ih]

theorem incAt_sum (l : List ℚ) (k : Nat) (h : k < l.length) :
    (incAt l k).sum = l.sum + 1 := by
  induction l generalizing k with
  | nil => simp at h
  | cons x xs ih =>
    cases k with
    | zero => simp [incAt]; ring
    | succ k => simp [incAt, ih k (by simpa using h)]; ring

theorem incAt_nonneg (l : List ℚ) (k : Nat) (h : ∀ x ∈ l, 0 ≤ x) :
    ∀ x ∈ incAt l k, 0 ≤ x := by
  induction l generalizing k with
  | nil => simp [incAt]
  | cons y ys ih =>
    cases k with
    | zero =>
      intro x hx
      rcases List.mem_cons.mp hx with h1 | h1
      · have := h y (by simp)
        simp [h1]; linarith
      · exact h x (List.mem_cons_of_mem _ h1)
    | succ k =>
      intro x hx
      rcases List.mem_cons.mp hx with h1 | h1
      · exact h1 ▸ h y (by simp)
      · exact ih k (fun z hz => h z (List.mem_cons_of_mem _ hz)) x h1

theorem incNat_length (l : List Nat) (k : Nat) : (incNat l k).length = l.length := by
  induction l generalizing k with
  | nil => rfl
  | cons x xs ih => cases k <;> simp [incNat, ih]

theorem incNat_sum (l : List Nat) (k : Nat) (h : k < l.length) :
    (incNat l k).sum = l.sum + 1 := by
  induction l generalizing k with
  | nil => simp at h
  | cons x xs ih =>
    cases k with
    | zero => simp [incNat]; omega
    | succ k => simp [incNat, ih k (by simpa using h)]; omega

theorem incNat_map_cast (l : List Nat) (k : Nat) :
    (incNat l k).map (fun (c : Nat) => (c : ℚ)) = incAt (l.map (fun (c : Nat) => (c : ℚ))) k := by
  induction l generalizing k with
  | nil => rfl
  | cons x xs ih => cases k <;> simp [incNat, incAt, ih]

theorem charListLe_iff (as bs : List Char) : charListLe as bs = true ↔ ¬ bs < as := by
  induction as generalizing bs with
  | nil =>
    exact iff_of_true rfl (List.Lex.not_nil_right _ bs)
  | cons a as ih =>
    cases bs with
    | nil =>
      simp only [charListLe]
      constructor
      · intro h; cases h
      · intro h; exact absurd List.Lex.nil h
    | cons b bs =>
      have hba : ((b : Char) < a) = (b.toNat < a.toNat) := rfl
      simp only [charListLe]
      by_cases h1 : a.toNat < b.toNat
      · simp only [if_pos h1, true_iff]
        intro hlt
        cases hlt with
        | cons h => omega
        | rel h => rw [hba] at h; omega
      · by_cases h2 : b.toNat < a.toNat
        · simp only [if_neg h1, if_pos h2]
          constructor
          · intro h; cases h
          · intro h; exact absurd (List.Lex.rel (hba ▸ h2)) h
        · have e1 : a.toNat = a.val.toNat := rfl
          have e2 : b.toNat = b.val.toNat := rfl
          have heq : b = a := Char.ext (UInt32.ext (by omega))
          subst heq
          simp only [if_neg h1, if_neg h2, ih bs]
          constructor
          · intro h hlt
            cases hlt with
            | cons hx => exact h hx
            | rel hx => rw [hba] at hx; omega
          · intro h hlt
            exact h (List.Lex.cons hlt)

theorem strLe_iff_le (s t : String) : strLe s t = true ↔ s ≤ t := by
  have h1 : (s ≤ t) = ¬ t < s := rfl
  rw [h1, String.lt_iff_toList_lt]
  exact charListLe_iff s.data t.data

theorem strLe_total (s t : String) : strLe s t = true ∨ strLe t s = true := by
  rw [strLe_iff_le, strLe_iff_le]
  exact le_total s t

theorem strLe_trans {s t u : String} (h1 : strLe s t = true) (h2 : strLe t u = true) :
    strLe s u = true := by
  rw [strLe_iff_le] at h1 h2 ⊢
  exact le_trans h1 h2

/-- The list `companies_in_area` is a sorted, duplicate-free enumeration of the
distinct companies of the area. -/
theorem companies_in_area_spec (agg : List Obs) (a : String) :
    (companies_in_area agg a).Sorted (fun x y => x ≤ y) ∧
    (companies_in_area agg a).Nodup ∧
    (companies_in_area agg a).length =
      (((agg.filter (fun o => o.area == a)).map (fun o => o.company)).dedup).length := by
  haveI htot : IsTotal String (fun x y => strLe x y = true) := ⟨strLe_total⟩
  haveI htrans : IsTrans String (fun x y => strLe x y = true) := ⟨fun _ _ _ => strLe_trans⟩
  have hperm := List.perm_insertionSort (fun x y => strLe x y = true)
    (((agg.filter (fun o => o.area == a)).map (fun o => o.company)).dedup)
  refine ⟨?_, ?_, ?_⟩
  · have hs := List.sorted_insertionSort (fun x y => strLe x y = true)
      (((agg.filter (fun o => o.area == a)).map (fun o => o.company)).dedup)
    exact hs.imp (fun h => (strLe_iff_le _ _).mp h)
  · exact hperm.nodup_iff.mpr (List.nodup_dedup _)
  · exact hperm.length_eq

/-- At `month_index = 0` (and also for an area without companies) the builder
returns the all-zero square matrix over the area's company list. -/
theorem build_at_zero (agg : List Obs) (area : String) (months : List String) :
    build_payoff_matrix_from_observations agg area 0 months =
      (zeroMat (companies_in_area agg area).length, companies_in_area agg area) := by
  unfold build_payoff_matrix_from_observations
  by_cases h : (companies_in_area agg area).length = 0
  · simp [h]
  · simp [h]

/-- Closed form of the first-maximum scan in terms of the lowest-index
maximizer of the remaining list. -/
theorem argmaxAux_eq (xs : List ℚ) : ∀ (i bi : Nat) (bv : ℚ),
    argmaxAux xs i bi bv =
      (match lowestIdxMax xs with
       | none => bi
       | some k => if bv < xs.getD k 0 then i + k else bi) := by
  induction xs with
  | nil => intro i bi bv; rfl
  | cons x xs ih =>
    intro i bi bv
    cases h : lowestIdxMax xs with
    | none =>
      have ih0 : ∀ (i bi : Nat) (bv : ℚ), argmaxAux xs i bi bv = bi := by
        intro i bi bv; rw [ih, h]
      have hcons : lowestIdxMax (x :: xs) = some 0 := by
        simp only [lowestIdxMax, h]
      rw [hcons]
      show (if bv < x then argmaxAux xs (i + 1) i x else argmaxAux xs (i + 1) bi bv)
          = if bv < x then i + 0 else bi
      by_cases hb : bv < x
      · rw [if_pos hb, ih0, if_pos hb]; omega
      · rw [if_neg hb, ih0, if_neg hb]
    | some k =>
      have ih1 : ∀ (i bi : Nat) (bv : ℚ),
          argmaxAux xs i bi bv = if bv < xs.getD k 0 then i + k else bi := by
        intro i bi bv; rw [ih, h]
      by_cases hxm : x < xs.getD k 0
      · have hcons : lowestIdxMax (x :: xs) = some (k + 1) := by
          simp only [lowestIdxMax, h]
          rw [if_pos hxm]
        rw [hcons]
        show (if bv < x then argmaxAux xs (i + 1) i x else argmaxAux xs (i + 1) bi bv)
            = if bv < xs.getD k 0 then i + (k + 1) else bi
        by_cases hb : bv < x
        · rw [if_pos hb, ih1, if_pos hxm, if_pos (lt_trans hb hxm)]
          omega
        · rw [if_neg hb, ih1]
          by_cases hbm : bv < xs.getD k 0
          · rw [if_pos hbm, if_pos hbm]; omega
          · rw [if_neg hbm, if_neg hbm]
      · have hcons : lowestIdxMax (x :: xs) = some 0 := by
          simp only [lowestIdxMax, h]
          rw [if_neg hxm]
        rw [hcons]
        show (if bv < x then argmaxAux xs (i + 1) i x else argmaxAux xs (i + 1) bi bv)
            = if bv < x then i + 0 else bi
        by_cases hb : bv < x
        · rw [if_pos hb, ih1, if_neg hxm, if_pos hb]; omega
        · have hbm : ¬ bv < xs.getD k 0 :=
            fun hc => hb (lt_of_lt_of_le hc (le_of_not_lt hxm))
          rw [if_neg hb, ih1, if_neg hbm, if_neg hb]

/-- The first-maximum scan of `np.argmax` computes the lowest-index
maximizer, as the spec describes the tie-breaking. -/
theorem argmax?_eq_lowestIdxMax (v : List ℚ) : argmax? v = lowestIdxMax v := by
  cases v with
  | nil => rfl
  | cons x xs =>
    cases h : lowestIdxMax xs with
    | none =>
      have hL : argmax? (x :: xs) = some 0 := by
        show some (argmaxAux xs 1 0 x) = some 0
        rw [argmaxAux_eq xs 1 0 x, h]
      have hR : lowestIdxMax (x :: xs) = some 0 := by
        simp only [lowestIdxMax, h]
      rw [hL, hR]
    | some k =>
      have hL : argmax? (x :: xs) = if x < xs.getD k 0 then some (1 + k) else some 0 := by
        show some (argmaxAux xs 1 0 x) = _
        rw [argmaxAux_eq xs 1 0 x, h]
        show some (if x < xs.getD k 0 then 1 + k else 0) = _
        by_cases hxm : x < xs.getD k 0
        · rw [if_pos hxm, if_pos hxm]
        · rw [if_neg hxm, if_neg hxm]
      have hR : lowestIdxMax (x :: xs)
          = if x < xs.getD k 0 then some (k + 1) else some 0 := by
        simp only [lowestIdxMax, h]
      rw [hL, hR]
      by_cases hxm : x < xs.getD k 0
      · rw [if_pos hxm, if_pos hxm, Nat.add_comm]
      · rw [if_neg hxm, if_neg hxm]

theorem lowestIdxMax_lt_length (v : List ℚ) :
    ∀ k, lowestIdxMax v = some k → k < v.length := by
  induction v with
  | nil => intro k h; cases h
  | cons x xs ih =>
    intro k h
    cases h2 : lowestIdxMax xs with
    | none =>
      have hR : lowestIdxMax (x :: xs) = some 0 := by
        simp only [lowestIdxMax, h2]
      rw [hR] at h
      cases h
      simp
    | some k2 =>
      have hR : lowestIdxMax (x :: xs)
          = if x < xs.getD k2 0 then some (k2 + 1) else some 0 := by
        simp only [lowestIdxMax, h2]
      rw [hR] at h
      by_cases hxm : x < xs.getD k2 0
      · rw [if_pos hxm] at h
        cases h
        have := ih k2 h2
        simp only [List.length_cons]
        omega
      · rw [if_neg hxm] at h
        cases h
        simp

theorem argmax?_cons (x : ℚ) (xs : List ℚ) :
    ∃ br, argmax? (x :: xs) = some br ∧ br < (x :: xs).length := by
  cases h : argmax? (x :: xs) with
  | none => simp [argmax?] at h
  | some br =>
    refine ⟨br, rfl, ?_⟩
    rw [argmax?_eq_lowestIdxMax] at h
    exact lowestIdxMax_lt_length _ br h

theorem matVec_length (M : List (List ℚ)) (v : List ℚ) :
    (matVec M v).length = M.length := by
  simp [matVec]

theorem fpLoop_succ_eq (M : List (List ℚ)) (t : Nat) (counts belief : List ℚ) :
    fpLoop M (t + 1) counts belief =
      match argmax? (matVec M belief) with
      | none => none
      | some br =>
        fpLoop M t (incAt counts br)
          ((incAt counts br).map (fun c => c / (incAt counts br).sum)) := rfl

/-- One fictitious-play iteration produces a probability vector, and the
whole loop keeps producing one. -/
theorem fpLoop_valid (M : List (List ℚ)) (hn : 1 ≤ M.length) :
    ∀ (t : Nat) (counts belief : List ℚ), counts.length = M.length →
    (∀ x ∈ counts, 0 ≤ x) →
    ∃ b, fpLoop M (t + 1) counts belief = some b ∧
      b.length = M.length ∧ (∀ x ∈ b, 0 ≤ x) ∧ b.sum = 1 := by
  intro t
  induction t with
  | zero =>
    intro counts belief hl hnn
    obtain ⟨e, ev, hev⟩ : ∃ e ev, matVec M belief = e :: ev := by
      cases hm : matVec M belief with
      | nil => exfalso; have := matVec_length M belief; rw [hm] at this; simp at this; omega
      | cons e ev => exact ⟨e, ev, rfl⟩
    obtain ⟨br, hbr, hlt⟩ := argmax?_cons e ev
    have hltn : br < counts.length := by
      rw [hl, ← matVec_length M belief, hev]
      exact hlt
    have hsum : (incAt counts br).sum = counts.sum + 1 := incAt_sum counts br hltn
    have hpos : 0 < (incAt counts br).sum := by
      have h0 : 0 ≤ counts.sum := List.sum_nonneg hnn
      rw [hsum]; linarith
    refine ⟨(incAt counts br).map (fun c => c / (incAt counts br).sum), ?_, ?_, ?_, ?_⟩
    · show fpLoop M 1 counts belief = _
      simp only [fpLoop, hev, hbr]
    · rw [List.length_map, incAt_length, hl]
    · intro x hx
      obtain ⟨y, hy, rfl⟩ := List.mem_map.mp hx
      exact div_nonneg (incAt_nonneg counts br hnn y hy) (le_of_lt hpos)
    · rw [sum_map_div]
      exact div_self (ne_of_gt hpos)
  | succ t ih =>
    intro counts belief hl hnn
    obtain ⟨e, ev, hev⟩ : ∃ e ev, matVec M belief = e :: ev := by
      cases hm : matVec M belief with
      | nil => exfalso; have := matVec_length M belief; rw [hm] at this; simp at this; omega
      | cons e ev => exact ⟨e, ev, rfl⟩
    obtain ⟨br, hbr, hlt⟩ := argmax?_cons e ev
    have hltn : br < counts.length := by
      rw [hl, ← matVec_length M belief, hev]
      exact hlt
    obtain ⟨b, hb, hprops⟩ := ih (incAt counts br)
      ((incAt counts br).map (fun c => c / (incAt counts br).sum))
      (by rw [incAt_length, hl]) (incAt_nonneg counts br hnn)
    refine ⟨b, ?_, hprops⟩
    show fpLoop M (t + 2) counts belief = some b
    simp only [fpLoop, hev, hbr]
    exact hb

/-- One replicator iteration always lands in the probability simplex. -/
theorem rdStep_valid (M : List (List ℚ)) (dt : ℚ) (hn : 1 ≤ M.length)
    (p : List ℚ) (hl : p.length = M.length) :
    (rdStep M dt p).length = M.length ∧ (∀ x ∈ rdStep M dt p, 0 ≤ x) ∧
    (rdStep M dt p).sum = 1 := by
  have hnq : ((M.length : ℚ)) ≠ 0 := Nat.cast_ne_zero.mpr (by omega)
  simp only [rdStep]
  by_cases hs : ((List.zipWith (fun pi w => pi + dt * pi * (w - dot p (matVec M p)))
      p (matVec M p)).map (fun x => max x 0)).sum ≤ 0
  · rw [if_pos hs]
    refine ⟨by simp [uniform], ?_, ?_⟩
    · intro x hx
      rw [uniform, List.mem_replicate] at hx
      rw [hx.2]
      positivity
    · rw [uniform, List.sum_replicate, nsmul_eq_mul]
      field_simp
  · rw [if_neg hs]
    have hpos : 0 < ((List.zipWith (fun pi w => pi + dt * pi * (w - dot p (matVec M p)))
        p (matVec M p)).map (fun x => max x 0)).sum := lt_of_not_le hs
    refine ⟨?_, ?_, ?_⟩
    · rw [List.length_map, List.length_map, List.length_zipWith,
        matVec_length, hl, min_self]
    · intro x hx
      obtain ⟨y, hy, rfl⟩ := List.mem_map.mp hx
      obtain ⟨z, _, rfl⟩ := List.mem_map.mp hy
      exact div_nonneg (le_max_right z 0) (le_of_lt hpos)
    · rw [sum_map_div]
      exact div_self (ne_of_gt hpos)

/-- The replicator state is a probability vector after every iteration. -/
theorem rdIter_valid (M : List (List ℚ)) (dt : ℚ) (hn : 1 ≤ M.length) :
    ∀ steps : Nat,
      ((rdStep M dt)^[steps] (uniform M.length)).length = M.length ∧
      (∀ x ∈ (rdStep M dt)^[steps] (uniform M.length), 0 ≤ x) ∧
      ((rdStep M dt)^[steps] (uniform M.length)).sum = 1 := by
  have hnq : ((M.length : ℚ)) ≠ 0 := Nat.cast_ne_zero.mpr (by omega)
  intro steps
  induction steps with
  | zero =>
    refine ⟨by simp [uniform], ?_, ?_⟩
    · intro x hx
      rw [Function.iterate_zero_apply, uniform, List.mem_replicate] at hx
      rw [hx.2]
      positivity
    · rw [Function.iterate_zero_apply, uniform, List.sum_replicate, nsmul_eq_mul]
      field_simp
  | succ k ih =>
    rw [Function.iterate_succ_apply']
    exact rdStep_valid M dt hn _ ih.1

theorem dot_replicate_zero : ∀ (n : Nat) (v : List ℚ), dot (List.replicate n 0) v = 0 := by
  intro n
  induction n with
  | zero => intro v; simp [dot]
  | succ n ih =>
    intro v
    cases v with
    | nil => simp [dot]
    | cons y ys =>
      rw [List.replicate_succ]
      show (List.zipWith (fun a b => a * b) (0 :: List.replicate n 0) (y :: ys)).sum = 0
      rw [List.zipWith_cons_cons, List.sum_cons, zero_mul, zero_add]
      exact ih ys

theorem matVec_zeroMat (n : Nat) (v : List ℚ) :
    matVec (zeroMat n) v = List.replicate n 0 := by
  simp [matVec, zeroMat, List.map_replicate, dot_replicate_zero]

theorem uniform_sum (n : Nat) (hn : 1 ≤ n) : (uniform n).sum = 1 := by
  have hnq : ((n : ℚ)) ≠ 0 := Nat.cast_ne_zero.mpr (by omega)
  rw [uniform, List.sum_replicate, nsmul_eq_mul]
  field_simp

theorem argmaxAux_const : ∀ (k i bi : Nat) (x : ℚ),
    argmaxAux (List.replicate k x) i bi x = bi := by
  intro k
  induction k with
  | zero => intro i bi x; rfl
  | succ k ih =>
    intro i bi x
    rw [List.replicate_succ]
    show (if x < x then argmaxAux (List.replicate k x) (i + 1) i x
          else argmaxAux (List.replicate k x) (i + 1) bi x) = bi
    rw [if_neg (lt_irrefl x)]
    exact ih (i + 1) bi x

theorem argmax?_replicate (n : Nat) (hn : 1 ≤ n) (x : ℚ) :
    argmax? (List.replicate n x) = some 0 := by
  obtain ⟨m, rfl⟩ : ∃ m, n = m + 1 := ⟨n - 1, by omega⟩
  rw [List.replicate_succ]
  show some (argmaxAux (List.replicate m x) 1 0 x) = some 0
  rw [argmaxAux_const]

/-- On the all-zero matrix, every fictitious-play iteration best-responds to
index 0, so the loop state stays concentrated there. -/
theorem fpLoop_zeroMat (n : Nat) (hn : 1 ≤ n) :
    ∀ (t : Nat) (c : ℚ) (b : List ℚ), 0 ≤ c →
    fpLoop (zeroMat n) (t + 1) (c :: List.replicate (n - 1) 0) b
      = some (1 :: List.replicate (n - 1) 0) := by
  have hzlen : (zeroMat n).length = n := by simp [zeroMat]
  intro t
  induction t with
  | zero =>
    intro c b hc
    have hbr : argmax? (matVec (zeroMat n) b) = some 0 := by
      rw [matVec_zeroMat]
      exact argmax?_replicate n hn 0
    have hc1 : (c : ℚ) + 1 ≠ 0 := ne_of_gt (by linarith)
    rw [fpLoop_succ_eq, hbr]
    show some (((c + 1) :: List.replicate (n - 1) 0).map
        (fun x => x / ((c + 1) :: List.replicate (n - 1) (0 : ℚ)).sum))
      = some (1 :: List.replicate (n - 1) 0)
    have hs : ((c + 1) :: List.replicate (n - 1) (0 : ℚ)).sum = c + 1 := by
      simp [List.sum_replicate]
    rw [hs, List.map_cons, List.map_replicate, div_self hc1, zero_div]
  | succ t ih =>
    intro c b hc
    have hbr : argmax? (matVec (zeroMat n) b) = some 0 := by
      rw [matVec_zeroMat]
      exact argmax?_replicate n hn 0
    rw [fpLoop_succ_eq, hbr]
    show fpLoop (zeroMat n) (t + 1) ((c + 1) :: List.replicate (n - 1) 0)
        (((c + 1) :: List.replicate (n - 1) 0).map
          (fun x => x / ((c + 1) :: List.replicate (n - 1) (0 : ℚ)).sum))
      = some (1 :: List.replicate (n - 1) 0)
    exact ih (c + 1) _ (by linarith)

/-- The uniform distribution is a fixed point of the replicator step on the
all-zero matrix. -/
theorem rdStep_zeroMat (n : Nat) (hn : 1 ≤ n) (dt : ℚ) :
    rdStep (zeroMat n) dt (uniform n) = uniform n := by
  have hzlen : (zeroMat n).length = n := by simp [zeroMat]
  have hulen : (uniform n).length = n := by simp [uniform]
  have hun : (0 : ℚ) ≤ 1 / (n : ℚ) := by positivity
  simp only [rdStep, hzlen, matVec_zeroMat]
  have havg : dot (uniform n) (List.replicate n 0) = 0 := by
    show (List.zipWith (fun a b => a * b) (uniform n) (List.replicate n 0)).sum = 0
    rw [zipWith_replicate_right _ _ _ n (le_of_eq hulen)]
    simp
  rw [havg, zipWith_replicate_right _ _ _ n (le_of_eq hulen)]
  simp only [sub_zero, mul_zero, add_zero]
  have hmax : (uniform n).map (fun x => max x 0) = uniform n := by
    rw [uniform, List.map_replicate, max_eq_left hun]
  rw [List.map_id', hmax, uniform_sum n hn, if_neg (by norm_num)]
  rw [uniform, List.map_replicate]
  norm_num

/-- Fictitious play on a 1×1 matrix concentrates on the single strategy. -/
theorem fpLoop_one (M : List (List ℚ)) (hM : M.length = 1) :
    ∀ (t : Nat) (c : ℚ) (b : List ℚ), 0 ≤ c →
    fpLoop M (t + 1) [c] b = some [1] := by
  have hbr : ∀ b : List ℚ, argmax? (matVec M b) = some 0 := by
    intro b
    obtain ⟨e, hev⟩ : ∃ e, matVec M b = [e] := by
      cases hm : matVec M b with
      | nil => exfalso; have := matVec_length M b; rw [hm, hM] at this; simp at this
      | cons e ev =>
        cases hev2 : ev with
        | nil => subst hev2; exact ⟨e, rfl⟩
        | cons f fs =>
          exfalso
          have := matVec_length M b
          rw [hm, hev2, hM] at this
          simp at this
    rw [hev]
    rfl
  intro t
  induction t with
  | zero =>
    intro c b hc
    have hc1 : (c : ℚ) + 1 ≠ 0 := ne_of_gt (by linarith)
    rw [fpLoop_succ_eq, hbr b]
    show some (List.map (fun x => x / ([c + 1] : List ℚ).sum) [c + 1]) = some [1]
    have hs : ([c + 1] : List ℚ).sum = c + 1 := by simp
    rw [hs]
    simp [div_self hc1]
  | succ t ih =>
    intro c b hc
    rw [fpLoop_succ_eq, hbr b]
    show fpLoop M (t + 1) [c + 1]
        (List.map (fun x => x / ([c + 1] : List ℚ).sum) [c + 1]) = some [1]
    exact ih (c + 1) _ (by linarith)

theorem uniform_one : uniform 1 = [1] := by
  norm_num [uniform]

/-- The one-point distribution is a fixed point of the replicator step on any
1×1 matrix. -/
theorem rdStep_one (x dt : ℚ) : rdStep [[x]] dt [1] = [1] := by
  simp only [rdStep, matVec, dot, List.map_cons, List.map_nil, List.zipWith_cons_cons,
    List.zipWith_nil_right, List.sum_cons, List.sum_nil]
  norm_num

theorem rdStep_nil (dt : ℚ) : rdStep [] dt [] = [] := by
  simp [rdStep, matVec, uniform]

theorem fpSpecLoop_succ_eq (M : List (List ℚ)) (t : Nat) (counts : List Nat) :
    fpSpecLoop M (t + 1) counts =
      match lowestIdxMax (matVec M (specBeliefs M.length counts)) with
      | none => none
      | some br => fpSpecLoop M t (incNat counts br) := rfl

/-- The source loop state is the cast of the reference loop's counts, with
the belief derived from them; both loops therefore agree step by step. -/
theorem fpLoop_spec (M : List (List ℚ)) (hn : 1 ≤ M.length) :
    ∀ (t : Nat) (counts : List Nat), counts.length = M.length →
    (1 ≤ t ∨ counts.sum ≠ 0) →
    fpLoop M t (counts.map (fun (c : Nat) => (c : ℚ))) (specBeliefs M.length counts)
      = (fpSpecLoop M t counts).map
          (fun cs => cs.map (fun (c : Nat) => (c : ℚ) / (cs.sum : ℚ))) := by
  intro t
  induction t with
  | zero =>
    intro counts hl ht
    rcases ht with h | h
    · omega
    · show some (specBeliefs M.length counts)
        = some (counts.map (fun (c : Nat) => (c : ℚ) / (counts.sum : ℚ)))
      rw [specBeliefs, if_neg h]
  | succ t ih =>
    intro counts hl ht
    obtain ⟨e, ev, hev⟩ : ∃ e ev, matVec M (specBeliefs M.length counts) = e :: ev := by
      cases hm : matVec M (specBeliefs M.length counts) with
      | nil =>
        exfalso
        have := matVec_length M (specBeliefs M.length counts)
        rw [hm] at this
        simp at this
        omega
      | cons e ev => exact ⟨e, ev, rfl⟩
    obtain ⟨br, hbr, hlt⟩ := argmax?_cons e ev
    have hbr2 : lowestIdxMax (matVec M (specBeliefs M.length counts)) = some br := by
      rw [← argmax?_eq_lowestIdxMax, hev]
      exact hbr
    have hltn : br < counts.length := by
      rw [hl, ← matVec_length M (specBeliefs M.length counts), hev]
      exact hlt
    have hsum : (incNat counts br).sum = counts.sum + 1 := incNat_sum counts br hltn
    rw [fpLoop_succ_eq, hev, hbr, fpSpecLoop_succ_eq, hbr2]
    show fpLoop M t (incAt (counts.map (fun (c : Nat) => (c : ℚ))) br)
        ((incAt (counts.map (fun (c : Nat) => (c : ℚ))) br).map
          (fun c => c / (incAt (counts.map (fun (c : Nat) => (c : ℚ))) br).sum))
      = (fpSpecLoop M t (incNat counts br)).map
          (fun cs => cs.map (fun (c : Nat) => (c : ℚ) / (cs.sum : ℚ)))
    have hinc : incAt (counts.map (fun (c : Nat) => (c : ℚ))) br
        = (incNat counts br).map (fun (c : Nat) => (c : ℚ)) :=
      (incNat_map_cast counts br).symm
    have hsumq : ((incNat counts br).map (fun (c : Nat) => (c : ℚ))).sum
        = (((incNat counts br).sum : Nat) : ℚ) := by
      simp
    have hbel : ((incNat counts br).map (fun (c : Nat) => (c : ℚ))).map
        (fun c => c / ((incNat counts br).map (fun (c : Nat) => (c : ℚ))).sum)
        = specBeliefs M.length (incNat counts br) := by
      rw [specBeliefs, if_neg (by omega : ¬ (incNat counts br).sum = 0), hsumq,
        List.map_map]
      rfl
    rw [hinc, hbel]
    exact ih (incNat counts br) (by rw [incNat_length, hl]) (Or.inr (by omega))

theorem dot_replicate_right (p : List ℚ) (n : Nat) (c : ℚ) (h : p.length ≤ n) :
    dot p (List.replicate n c) = p.sum * c := by
  show (List.zipWith (fun a b => a * b) p (List.replicate n c)).sum = p.sum * c
  rw [zipWith_replicate_right _ _ _ n h]
  simp [List.sum_map_mul_right]

theorem argsort_length (v : List ℚ) : (argsort v).length = v.length := by
  rw [argsort, (List.perm_insertionSort _ _).length_eq, List.length_range]

/-- The values of `v` read along `argsort v` are the ascending sort of `v`. -/
theorem argsort_values (v : List ℚ) :
    (argsort v).map (fun k => v.getD k 0)
      = List.insertionSort (fun a b => a ≤ b) v := by
  haveI h1 : IsTotal Nat (fun a b => v.getD a 0 ≤ v.getD b 0) :=
    ⟨fun a b => le_total _ _⟩
  haveI h2 : IsTrans Nat (fun a b => v.getD a 0 ≤ v.getD b 0) :=
    ⟨fun a b c => le_trans⟩
  apply List.eq_of_perm_of_sorted (r := fun a b => a ≤ b)
  · have hp : (argsort v).Perm (List.range v.length) := List.perm_insertionSort _ _
    have hp2 := hp.map (fun k => v.getD k 0)
    rw [map_getD_range] at hp2
    exact hp2.trans (List.perm_insertionSort (fun a b => a ≤ b) v).symm
  · exact List.pairwise_map.mpr
      (List.sorted_insertionSort (fun a b => v.getD a 0 ≤ v.getD b 0)
        (List.range v.length))
  · exact List.sorted_insertionSort _ v

theorem argsort_getD_lt (v : List ℚ) (k : Nat) (hk : k < v.length) :
    (argsort v).getD k 0 < v.length := by
  have hk2 : k < (argsort v).length := by rw [argsort_length]; exact hk
  have hmem : (argsort v).getD k 0 ∈ argsort v := by
    rw [List.getD_eq_getElem _ _ hk2]
    exact List.getElem_mem hk2
  have hm2 := (List.perm_insertionSort
    (fun a b => v.getD a 0 ≤ v.getD b 0) (List.range v.length)).mem_iff.mp hmem
  exact List.mem_range.mp hm2

theorem getD_map (l : List Nat) (f : Nat → ℚ) (k : Nat) (hk : k < l.length)
    (d : ℚ) (d2 : Nat) : (l.map f).getD k d = f (l.getD k d2) := by
  rw [List.getD_eq_getElem _ _ (by simpa using hk), List.getD_eq_getElem _ _ hk,
    List.getElem_map]

theorem diagAbs_length (M : List (List ℚ)) : (diagAbs M).length = M.length := by
  simp [diagAbs]

theorem diagAbs_getD (M : List (List ℚ)) (k : Nat) (hk : k < M.length) :
    (diagAbs M).getD k 0 = |entry M k k| := by
  rw [diagAbs, getD_map_range _ _ k hk]

theorem build_pos (agg : List Obs) (area : String) (mi : Nat) (months : List String)
    (hne : (companies_in_area agg area).length ≠ 0) (hmi : mi ≠ 0) :
    (build_payoff_matrix_from_observations agg area mi months).1 =
      (List.range (companies_in_area agg area).length).map (fun i =>
        (List.range (companies_in_area agg area).length).map (fun j =>
          clip (if i = j then
              shareChangePP agg area (months.getD (mi - 1) ("")) (months.getD mi (""))
                ((companies_in_area agg area).getD i (""))
            else
              shareChangePP agg area (months.getD (mi - 1) ("")) (months.getD mi (""))
                ((companies_in_area agg area).getD i ("")) -
              influence_factor *
                shareChangePP agg area (months.getD (mi - 1) ("")) (months.getD mi (""))
                  ((companies_in_area agg area).getD j ("")))
            (-cap) cap)) := by
  simp only [build_payoff_matrix_from_observations]
  rw [if_neg hne, if_neg hmi]

theorem build_entry (agg : List Obs) (area : String) (mi : Nat) (months : List String)
    (i j : Nat) (hne : (companies_in_area agg area).length ≠ 0) (hmi : mi ≠ 0)
    (hi : i < (companies_in_area agg area).length)
    (hj : j < (companies_in_area agg area).length) :
    entry (build_payoff_matrix_from_observations agg area mi months).1 i j =
      clip (if i = j then
          shareChangePP agg area (months.getD (mi - 1) ("")) (months.getD mi (""))
            ((companies_in_area agg area).getD i (""))
        else
          shareChangePP agg area (months.getD (mi - 1) ("")) (months.getD mi (""))
            ((companies_in_area agg area).getD i ("")) -
          influence_factor *
            shareChangePP agg area (months.getD (mi - 1) ("")) (months.getD mi (""))
              ((companies_in_area agg area).getD j (""))) (-cap) cap := by
  rw [entry, build_pos agg area mi months hne hmi, getD_map_range _ _ i hi,
    getD_map_range _ _ j hj]

/-- C6: at `monthIndex = 0` the builder returns the all-zero N×N matrix —
0×0 when the area has no companies — where N is the number of distinct
companies observed in the area across all months, together with that
duplicate-free, lexicographically sorted company list. -/
theorem build_month0_zero_matrix (agg : List Obs) (area : String)
    (months : List String) :
    build_payoff_matrix_from_observations agg area 0 months =
      (zeroMat (companies_in_area agg area).length, companies_in_area agg area) ∧
    (companies_in_area agg area).length =
      (((agg.filter (fun o => o.area == area)).map (fun o => o.company)).dedup).length ∧
    (companies_in_area agg area).Sorted (fun x y => x ≤ y) ∧
    (companies_in_area agg area).Nodup :=
  ⟨build_at_zero agg area months, (companies_in_area_spec agg area).2.2,
   (companies_in_area_spec agg area).1, (companies_in_area_spec agg area).2.1⟩

/-- C1: for `monthIndex ≥ 1`, every diagonal cell is the company's clamped
percentage-point share change and every off-diagonal cell is
`clamp(shareChangePP[i] − 0.25·shareChangePP[j], −50, 50)`, with shares taken
against totals floored at `1e-9` and missing observations counting as 0; on
the spec's concrete two-company example the matrix is
`[[10, 12.5], [−12.5, −10]]` with companies `["A", "B"]`. -/
theorem payoff_entry_formula (agg : List Obs) (area : String) (mi : Nat)
    (months : List String) (i j : Nat) (h1 : 1 ≤ mi)
    (hi : i < (companies_in_area agg area).length)
    (hj : j < (companies_in_area agg area).length) :
    (entry (build_payoff_matrix_from_observations agg area mi months).1 i i =
      clip (shareChangePP agg area (months.getD (mi - 1) ("")) (months.getD mi (""))
        ((companies_in_area agg area).getD i (""))) (-50) 50) ∧
    (i ≠ j →
      entry (build_payoff_matrix_from_observations agg area mi months).1 i j =
        clip (shareChangePP agg area (months.getD (mi - 1) ("")) (months.getD mi (""))
            ((companies_in_area agg area).getD i ("")) -
          (1 / 4) *
            shareChangePP agg area (months.getD (mi - 1) ("")) (months.getD mi (""))
              ((companies_in_area agg area).getD j (""))) (-50) 50) ∧
    build_payoff_matrix_from_observations exampleAgg ("X") 1 ["2025-01", "2025-02"] =
      ([[10, 25 / 2], [-25 / 2, -10]], ["A", "B"]) := by
  have hne : (companies_in_area agg area).length ≠ 0 := by omega
  have hmi : mi ≠ 0 := by omega
  refine ⟨?_, ?_, by decide⟩
  · rw [build_entry agg area mi months i i hne hmi hi hi, if_pos rfl]
    simp only [cap]
  · intro hij
    rw [build_entry agg area mi months i j hne hmi hi hj, if_neg hij]
    simp only [cap, influence_factor]

/-- Witness for C1: on the spec's example the off-diagonal formula evaluates
to 12.5 at the concrete cell (0, 1). -/
theorem payoff_entry_formula_witness :
    entry (build_payoff_matrix_from_observations exampleAgg ("X") 1
      ["2025-01", "2025-02"]).1 0 1 = 25 / 2 := by
  have h := payoff_entry_formula exampleAgg ("X") 1 ["2025-01", "2025-02"] 0 1
    (by norm_num) (by decide) (by decide)
  rw [h.2.1 (by decide)]
  decide

/-- C2: for every square matrix with N ≥ 1 (the all-zero matrix included) and
every `steps ≥ 1`, `fictitious_play` returns (without raising) a length-N
vector of non-negative entries summing to exactly 1, and
`replicator_dynamics` returns such a vector for every `dt` as well; exact
sums in ℚ are in particular within the spec's 1e-6 tolerance. -/
theorem solvers_return_probability_vectors (M : List (List ℚ)) (steps : Nat)
    (dt : ℚ) (_hsq : ∀ r ∈ M, r.length = M.length) (hn : 1 ≤ M.length)
    (hs : 1 ≤ steps) :
    (∃ b, fictitious_play M steps = some b ∧ b.length = M.length ∧
      (∀ x ∈ b, 0 ≤ x) ∧ b.sum = 1) ∧
    ((replicator_dynamics M steps dt).length = M.length ∧
      (∀ x ∈ replicator_dynamics M steps dt, 0 ≤ x) ∧
      (replicator_dynamics M steps dt).sum = 1) := by
  constructor
  · obtain ⟨t, rfl⟩ : ∃ t, steps = t + 1 := ⟨steps - 1, by omega⟩
    exact fpLoop_valid M hn t (List.replicate M.length 0) (uniform M.length)
      (by simp)
      (by intro x hx; rw [List.mem_replicate] at hx; rw [hx.2])
  · exact rdIter_valid M dt hn steps

/-- Witness for C2 at the 1×1 zero matrix with one step. -/
theorem solvers_return_probability_vectors_witness :
    (∃ b, fictitious_play [[(0 : ℚ)]] 1 = some b ∧ b.length = 1 ∧
      (∀ x ∈ b, 0 ≤ x) ∧ b.sum = 1) ∧
    ((replicator_dynamics [[(0 : ℚ)]] 1 (1 / 100)).length = 1 ∧
      (∀ x ∈ replicator_dynamics [[(0 : ℚ)]] 1 (1 / 100), 0 ≤ x) ∧
      (replicator_dynamics [[(0 : ℚ)]] 1 (1 / 100)).sum = 1) :=
  solvers_return_probability_vectors [[(0 : ℚ)]] 1 (1 / 100) (by decide)
    (by decide) (by decide)

/-- C10: one replicator iteration — Euler step, clip to zero, renormalize or
uniform reset — re-establishes the probability-vector invariant from any
simplex point, so the state is a distribution after every loop iteration. -/
theorem replicator_step_invariant (M : List (List ℚ)) (dt : ℚ) (p : List ℚ)
    (hn : 1 ≤ M.length) (hl : p.length = M.length)
    (_hnn : ∀ x ∈ p, 0 ≤ x) (_hsum : p.sum = 1) :
    (rdStep M dt p).length = M.length ∧ (∀ x ∈ rdStep M dt p, 0 ≤ x) ∧
    (rdStep M dt p).sum = 1 :=
  rdStep_valid M dt hn p hl

/-- Witness for C10 at the 1×1 zero matrix and the one-point distribution. -/
theorem replicator_step_invariant_witness :
    (rdStep [[(0 : ℚ)]] (1 / 100) [1]).length = 1 ∧
    (∀ x ∈ rdStep [[(0 : ℚ)]] (1 / 100) [1], 0 ≤ x) ∧
    (rdStep [[(0 : ℚ)]] (1 / 100) [1]).sum = 1 :=
  replicator_step_invariant [[(0 : ℚ)]] (1 / 100) [1] (by decide) (by decide)
    (by decide) (by decide)

/-- C4: if every strategy has the same expected payoff under `p`
(`M·p = (p·M·p)·𝟙`), one replicator iteration returns `p` exactly. -/
theorem replicator_fixed_point (M : List (List ℚ)) (dt : ℚ) (p : List ℚ)
    (_hn : 1 ≤ M.length) (hl : p.length = M.length)
    (hnn : ∀ x ∈ p, 0 ≤ x) (hsum : p.sum = 1)
    (hfix : matVec M p = List.replicate M.length (dot p (matVec M p))) :
    rdStep M dt p = p := by
  have hlen : p.length ≤ M.length := le_of_eq hl
  simp only [rdStep]
  set c := dot p (matVec M p) with hc
  rw [hfix, zipWith_replicate_right _ _ _ M.length hlen]
  simp only [sub_self, mul_zero, add_zero]
  rw [List.map_id', List.map_congr_left (fun a ha => max_eq_left (hnn a ha)),
    List.map_id', hsum, if_neg (by norm_num : ¬ (1 : ℚ) ≤ 0),
    List.map_congr_left (fun a _ => div_one a), List.map_id']

/-- Witness for C4: the uniform point on the 1×1 zero matrix. -/
theorem replicator_fixed_point_witness :
    rdStep [[(0 : ℚ)]] (1 / 100) [1] = [1] :=
  replicator_fixed_point [[(0 : ℚ)]] (1 / 100) [1] (by decide) (by decide)
    (by decide) (by decide) (by decide)

/-- C5: for N ≥ 1 and steps ≥ 1, `fictitious_play` coincides with the spec's
reference recurrence (zero counts, uniform initial belief, lowest-index
argmax tie-breaking, beliefs = counts normalized, final beliefs returned). -/
theorem fictitious_play_matches_reference (M : List (List ℚ)) (steps : Nat)
    (hn : 1 ≤ M.length) (hs : 1 ≤ steps) :
    fictitious_play M steps = fictitiousPlaySpec M steps := by
  show fpLoop M steps (List.replicate M.length 0) (uniform M.length)
    = (fpSpecLoop M steps (List.replicate M.length 0)).map
        (fun cs => cs.map (fun (c : Nat) => (c : ℚ) / (cs.sum : ℚ)))
  have h1 : (List.replicate M.length (0 : Nat)).map (fun (c : Nat) => (c : ℚ))
      = List.replicate M.length (0 : ℚ) := by simp
  have h2 : specBeliefs M.length (List.replicate M.length 0)
      = uniform M.length := by
    rw [specBeliefs, if_pos (by simp)]
  rw [← h1, ← h2]
  exact fpLoop_spec M hn steps _ (by simp) (Or.inl hs)

/-- Witness for C5 on a concrete 2×2 matrix. -/
theorem fictitious_play_matches_reference_witness :
    fictitious_play [[0, 3], [2, 1]] 2 = fictitiousPlaySpec [[0, 3], [2, 1]] 2 :=
  fictitious_play_matches_reference [[0, 3], [2, 1]] 2 (by decide) (by decide)

/-- C9: on the all-zero matrix built for the first month of an area with
N ≥ 1 companies, fictitious play returns exactly the one-hot vector on index
0 and replicator dynamics returns exactly the uniform vector, for any
`steps ≥ 1` and any `dt`. -/
theorem zero_matrix_solver_outputs (agg : List Obs) (area : String)
    (months : List String) (steps : Nat) (dt : ℚ)
    (hn : 1 ≤ (companies_in_area agg area).length) (hs : 1 ≤ steps) :
    fictitious_play (build_payoff_matrix_from_observations agg area 0 months).1
        steps
      = some (1 :: List.replicate ((companies_in_area agg area).length - 1) 0) ∧
    replicator_dynamics (build_payoff_matrix_from_observations agg area 0 months).1
        steps dt
      = uniform (companies_in_area agg area).length := by
  have hM : (build_payoff_matrix_from_observations agg area 0 months).1
      = zeroMat (companies_in_area agg area).length := by
    rw [build_at_zero]
  rw [hM]
  obtain ⟨m, hm⟩ : ∃ m, (companies_in_area agg area).length = m + 1 :=
    ⟨(companies_in_area agg area).length - 1, by omega⟩
  rw [hm]
  have hzl : (zeroMat (m + 1)).length = m + 1 := by simp [zeroMat]
  constructor
  · obtain ⟨t, rfl⟩ : ∃ t, steps = t + 1 := ⟨steps - 1, by omega⟩
    show fpLoop (zeroMat (m + 1)) (t + 1)
      (List.replicate (zeroMat (m + 1)).length 0)
      (uniform (zeroMat (m + 1)).length) = _
    rw [hzl]
    rw [show List.replicate (m + 1) (0 : ℚ) = 0 :: List.replicate m 0 from
      List.replicate_succ 0 m]
    exact fpLoop_zeroMat (m + 1) (by omega) t 0 _ (le_refl 0)
  · show (rdStep (zeroMat (m + 1)) dt)^[steps]
      (uniform (zeroMat (m + 1)).length) = uniform (m + 1)
    rw [hzl]
    exact Function.iterate_fixed (rdStep_zeroMat (m + 1) (by omega) dt) steps

/-- Witness for C9 on the example area (two companies) with one step. -/
theorem zero_matrix_solver_outputs_witness :
    fictitious_play (build_payoff_matrix_from_observations exampleAgg ("X") 0
      ["2025-01", "2025-02"]).1 1 = some [1, 0] ∧
    replicator_dynamics (build_payoff_matrix_from_observations exampleAgg ("X") 0
      ["2025-01", "2025-02"]).1 1 (1 / 100) = uniform 2 := by
  have h := zero_matrix_solver_outputs exampleAgg ("X") ["2025-01", "2025-02"] 1
    (1 / 100) (by decide) (by decide)
  exact ⟨h.1.trans (by decide), h.2.trans (by decide)⟩

/-- C8 as stated is false on the code: for the 0×0 matrix `np.argmax` raises
(modelled by `none`), and for a 1×1 matrix the dynamics return the non-empty
vector `[1.0]` rather than an empty output. -/
theorem solvers_degenerate_counterexample :
    fictitious_play (zeroMat 0) 1 = none ∧
    replicator_dynamics [[(5 : ℚ)]] 1 (1 / 100) = [1] ∧ ([(1 : ℚ)] ≠ []) :=
  ⟨by decide, by decide, by decide⟩

/-- C8 amended: for N = 0 the bimatrix solver and replicator dynamics return
empty outputs but fictitious play raises (argmax of an empty array, modelled
by `none`); for N = 1 the bimatrix solver returns the empty record while both
dynamics return the non-empty singleton `[1.0]` without raising. -/
theorem solvers_degenerate_behavior
    (se : List (List ℚ) → List (List ℚ) → Except String Equilibria)
    (cs : List String) (steps : Nat) (dt x : ℚ) (hs : 1 ≤ steps) :
    fictitious_play (zeroMat 0) steps = none ∧
    replicator_dynamics (zeroMat 0) steps dt = [] ∧
    compute_lemke_howson_for_pair se (zeroMat 0) cs = LHRecord.empty ∧
    fictitious_play [[x]] steps = some [1] ∧
    replicator_dynamics [[x]] steps dt = [1] ∧
    compute_lemke_howson_for_pair se [[x]] cs = LHRecord.empty := by
  obtain ⟨t, rfl⟩ : ∃ t, steps = t + 1 := ⟨steps - 1, by omega⟩
  refine ⟨rfl, ?_, rfl, ?_, ?_, ?_⟩
  · show (rdStep (zeroMat 0) dt)^[t + 1] (uniform (zeroMat 0).length) = []
    exact Function.iterate_fixed (rdStep_nil dt) (t + 1)
  · exact fpLoop_one [[x]] rfl t 0 _ (le_refl 0)
  · show (rdStep [[x]] dt)^[t + 1] (uniform 1) = [1]
    rw [uniform_one]
    exact Function.iterate_fixed (rdStep_one x dt) (t + 1)
  · rfl

/-- Witness for the amended C8 at concrete inputs. -/
theorem solvers_degenerate_behavior_witness :
    fictitious_play (zeroMat 0) 1 = none ∧
    replicator_dynamics (zeroMat 0) 1 (1 / 100) = [] ∧
    compute_lemke_howson_for_pair okSolver (zeroMat 0) ["A"]
      = LHRecord.empty ∧
    fictitious_play [[(5 : ℚ)]] 1 = some [1] ∧
    replicator_dynamics [[(5 : ℚ)]] 1 (1 / 100) = [1] ∧
    compute_lemke_howson_for_pair okSolver [[(5 : ℚ)]] ["A"]
      = LHRecord.empty :=
  solvers_degenerate_behavior okSolver ["A"] 1 (1 / 100) 5
    (by decide)

/-- C7: the bimatrix solver returns the empty record for every matrix of size
0 or dimension < 2, and for N ≥ 2 it never propagates an exception: it
returns either a full record (whose equilibria come from the solver run on
the selected pair) or a record carrying an error marker. -/
theorem lemke_howson_error_handling
    (se : List (List ℚ) → List (List ℚ) → Except String Equilibria)
    (M : List (List ℚ)) (cs : List String) :
    (M.length = 0 ∨ M.length < 2 →
      compute_lemke_howson_for_pair se M cs = LHRecord.empty) ∧
    (2 ≤ M.length →
      (∃ s1 s2 A eqs, compute_lemke_howson_for_pair se M cs
          = LHRecord.record s1 s2 A eqs ∧ se A (transposeA A) = Except.ok eqs) ∨
      (∃ e, compute_lemke_howson_for_pair se M cs = LHRecord.err e)) := by
  constructor
  · intro h
    simp only [compute_lemke_howson_for_pair]
    by_cases h0 : M.length = 0
    · rw [if_pos h0]
    · rw [if_neg h0, if_pos (by omega)]
  · intro hn
    simp only [compute_lemke_howson_for_pair]
    rw [if_neg (by omega), if_neg (by omega)]
    set i := (argsort (diagAbs M)).getD (M.length - 2) 0 with hi_def
    set j := (argsort (diagAbs M)).getD (M.length - 1) 0 with hj_def
    by_cases hij : i < cs.length ∧ j < cs.length
    · rw [if_pos hij]
      cases hse : se [[entry M i i, entry M i j], [entry M j i, entry M j j]]
        (transposeA [[entry M i i, entry M i j], [entry M j i, entry M j j]]) with
      | ok eqs =>
        left
        exact ⟨cs.getD i (""), cs.getD j (""),
          [[entry M i i, entry M i j], [entry M j i, entry M j j]], eqs,
          rfl, hse⟩
      | error e =>
        right
        exact ⟨e, rfl⟩
    · rw [if_neg hij]
      exact Or.inr ⟨_, rfl⟩

/-- Witness for C7: a 1×1 input gives the empty record, and on a 2×2 input
with a failing solver an error marker (not an exception) comes back. -/
theorem lemke_howson_error_handling_witness :
    compute_lemke_howson_for_pair errSolver [[(1 : ℚ)]] ["A"] = LHRecord.empty ∧
    ((∃ s1 s2 A eqs, compute_lemke_howson_for_pair errSolver [[1, 0], [0, 2]]
        ["A", "B"] = LHRecord.record s1 s2 A eqs ∧
        errSolver A (transposeA A) = Except.ok eqs) ∨
      (∃ e, compute_lemke_howson_for_pair errSolver [[1, 0], [0, 2]] ["A", "B"]
        = LHRecord.err e)) :=
  ⟨(lemke_howson_error_handling errSolver [[(1 : ℚ)]] ["A"]).1
      (Or.inr (by norm_num)),
   (lemke_howson_error_handling errSolver [[1, 0], [0, 2]] ["A", "B"]).2
      (by norm_num)⟩

/-- C3: for N ≥ 2, the solver picks `i`, `j` as the last two positions of the
ascending argsort of the absolute diagonal — so `|M[j][j]|` is the largest
and `|M[i][i]|` the second-largest absolute diagonal value — returns the
player pair `(companies[i], companies[j])`, builds
`A = [[M[i][i], M[i][j]], [M[j][i], M[j][j]]]`, and solves the bimatrix game
with row-player matrix `A` and column-player matrix `Aᵀ`. -/
theorem lemke_howson_selection
    (se : List (List ℚ) → List (List ℚ) → Except String Equilibria)
    (M : List (List ℚ)) (cs : List String) (hn : 2 ≤ M.length)
    (_hsq : ∀ r ∈ M, r.length = M.length) (hcs : cs.length = M.length) :
    ∃ i j A,
      i = (argsort (diagAbs M)).getD (M.length - 2) 0 ∧
      j = (argsort (diagAbs M)).getD (M.length - 1) 0 ∧
      i < M.length ∧ j < M.length ∧
      |entry M j j| =
        (List.insertionSort (fun a b => a ≤ b) (diagAbs M)).getD (M.length - 1) 0 ∧
      |entry M i i| =
        (List.insertionSort (fun a b => a ≤ b) (diagAbs M)).getD (M.length - 2) 0 ∧
      A = [[entry M i i, entry M i j], [entry M j i, entry M j j]] ∧
      (∀ eqs, se A (transposeA A) = Except.ok eqs →
        compute_lemke_howson_for_pair se M cs
          = LHRecord.record (cs.getD i ("")) (cs.getD j ("")) A eqs) ∧
      (∀ e, se A (transposeA A) = Except.error e →
        compute_lemke_howson_for_pair se M cs = LHRecord.err e) := by
  have hdl : (diagAbs M).length = M.length := diagAbs_length M
  have hal : (argsort (diagAbs M)).length = M.length := by
    rw [argsort_length, hdl]
  set i := (argsort (diagAbs M)).getD (M.length - 2) 0 with hi_def
  set j := (argsort (diagAbs M)).getD (M.length - 1) 0 with hj_def
  have hi : i < M.length := by
    have := argsort_getD_lt (diagAbs M) (M.length - 2) (by omega)
    rwa [hdl] at this
  have hj : j < M.length := by
    have := argsort_getD_lt (diagAbs M) (M.length - 1) (by omega)
    rwa [hdl] at this
  have hval : ∀ k, k < M.length →
      |entry M ((argsort (diagAbs M)).getD k 0) ((argsort (diagAbs M)).getD k 0)| =
        (List.insertionSort (fun a b => a ≤ b) (diagAbs M)).getD k 0 := by
    intro k hk
    have hklt : (argsort (diagAbs M)).getD k 0 < M.length := by
      have := argsort_getD_lt (diagAbs M) k (by omega)
      rwa [hdl] at this
    rw [← diagAbs_getD M _ hklt, ← argsort_values (diagAbs M),
      getD_map (argsort (diagAbs M)) _ k (by omega) _ 0]
  refine ⟨i, j, [[entry M i i, entry M i j], [entry M j i, entry M j j]],
    hi_def, hj_def, hi, hj, hval (M.length - 1) (by omega),
    hval (M.length - 2) (by omega), rfl, ?_, ?_⟩
  · intro eqs hse
    simp only [compute_lemke_howson_for_pair]
    rw [if_neg (by omega), if_neg (by omega),
      if_pos ⟨by omega, by omega⟩, hse]
  · intro e hse
    simp only [compute_lemke_howson_for_pair]
    rw [if_neg (by omega), if_neg (by omega),
      if_pos ⟨by omega, by omega⟩, hse]

/-- Witness for C3 on a concrete 2×2 matrix with a dummy solver. -/
theorem lemke_howson_selection_witness :
    ∃ i j A,
      i = (argsort (diagAbs [[(1 : ℚ), 2], [3, 4]])).getD 0 0 ∧
      j = (argsort (diagAbs [[(1 : ℚ), 2], [3, 4]])).getD 1 0 ∧
      i < 2 ∧ j < 2 ∧
      |entry [[(1 : ℚ), 2], [3, 4]] j j| =
        (List.insertionSort (fun a b => a ≤ b)
          (diagAbs [[(1 : ℚ), 2], [3, 4]])).getD 1 0 ∧
      |entry [[(1 : ℚ), 2], [3, 4]] i i| =
        (List.insertionSort (fun a b => a ≤ b)
          (diagAbs [[(1 : ℚ), 2], [3, 4]])).getD 0 0 ∧
      A = [[entry [[(1 : ℚ), 2], [3, 4]] i i, entry [[(1 : ℚ), 2], [3, 4]] i j],
           [entry [[(1 : ℚ), 2], [3, 4]] j i, entry [[(1 : ℚ), 2], [3, 4]] j j]] ∧
      (∀ eqs, okSolver A (transposeA A) = Except.ok eqs →
        compute_lemke_howson_for_pair okSolver
            [[(1 : ℚ), 2], [3, 4]] ["A", "B"]
          = LHRecord.record (["A", "B"].getD i ("")) (["A", "B"].getD j ("")) A eqs) ∧
      (∀ e, okSolver A (transposeA A) = Except.error e →
        compute_lemke_howson_for_pair okSolver
            [[(1 : ℚ), 2], [3, 4]] ["A", "B"] = LHRecord.err e) :=
  lemke_howson_selection okSolver [[(1 : ℚ), 2], [3, 4]]
    ["A", "B"] (by norm_num) (by decide) (by decide)

end AgtSim
